import Mathlib

/-!
Verification of the link parsing/rewriting engine of the pixel-perfect-image
plugin.  Strings are modelled as `List Char`; the JavaScript string operations
(`split`, `indexOf`, `substring`, `parseInt`, `decodeURIComponent`,
`encodeURIComponent`, regex replace / matchAll for the two image-link regexes)
are embedded faithfully below, and the engine functions
(`parseLinkComponents`, `buildLinkPath`, `updateLinks`, `updateImageLinks`,
`updateImageLinkWidth`, `removeImageWidth`, `getCurrentImageWidth`) are
translated from the source.
-/

set_option maxRecDepth 20000

/-- Convert a Lean string literal to the `List Char` representation used
throughout this development. -/
def s2l (s : String) : List Char := s.data

/-- `startsWithL hay needle` is JavaScript `hay.startsWith(needle)`. -/
def startsWithL : List Char → List Char → Bool
  | _, [] => true
  | [], _ :: _ => false
  | a :: as, b :: bs => a == b && startsWithL as bs

/-- Index of the first occurrence of `needle` in `hay`, if any. -/
def findSub (hay needle : List Char) : Option Nat :=
  if startsWithL hay needle then some 0
  else
    match hay with
    | [] => none
    | _ :: t => (findSub t needle).map (· + 1)

/-- JavaScript `hay.indexOf(needle, start)` (result `-1` modelled as `none`). -/
def indexOfFrom (hay needle : List Char) (start : Nat) : Option Nat :=
  (findSub (hay.drop start) needle).map (· + start)

/-- JavaScript `s.split(sep)` (full split; empty string gives `[""]`,
adjacent separators give empty fields). -/
def splitOnSep (sep : Char) : List Char → List (List Char)
  | [] => [[]]
  | c :: rest =>
    match splitOnSep sep rest with
    | [] => [[c]]
    | h :: t => if c = sep then [] :: h :: t else (c :: h) :: t

/-- JavaScript `parts.join(sep)` for a one-character separator. -/
def joinSep (sep : Char) : List (List Char) → List Char
  | [] => []
  | [x] => x
  | x :: y :: t => x ++ sep :: joinSep sep (y :: t)

/-- The first two fields of JavaScript `s.split("#", 2)`: the text before the
first `#`, and (when a `#` is present) the text between the first and second
`#`. -/
def splitHash2 (s : List Char) : List Char × Option (List Char) :=
  match s.dropWhile (· != '#') with
  | [] => (s.takeWhile (· != '#'), none)
  | _ :: rest => (s.takeWhile (· != '#'), some (rest.takeWhile (· != '#')))

/-- The whitespace characters recognized by JavaScript string trimming and
`parseInt`. -/
def jsSpaceChars : List Char :=
  [' ', '\t', '\n', '\r', '\x0b', '\x0c', '\u00A0', '\uFEFF', '\u2028', '\u2029']

def isJsSpace (c : Char) : Bool := decide (c ∈ jsSpaceChars)

/-- ASCII decimal digit test (the digits accepted by `parseInt` in radix 10). -/
def isDigit10 (c : Char) : Bool := decide (48 ≤ c.toNat) && decide (c.toNat ≤ 57)

/-- JavaScript `s.trim()`. -/
def trimJS (s : List Char) : List Char :=
  ((s.dropWhile isJsSpace).reverse.dropWhile isJsSpace).reverse

/-- Hexadecimal digit recognizer matching JavaScript `parseInt`'s radix-16
digits. -/
def isHexDigitJS (c : Char) : Bool :=
  isDigit10 c || (decide (97 ≤ c.toNat) && decide (c.toNat ≤ 102))
    || (decide (65 ≤ c.toNat) && decide (c.toNat ≤ 70))

/-- Value of a hexadecimal digit character. -/
def hexDigitVal (c : Char) : Option Nat :=
  if isDigit10 c then some (c.toNat - 48)
  else if decide (97 ≤ c.toNat) && decide (c.toNat ≤ 102) then some (c.toNat - 87)
  else if decide (65 ≤ c.toNat) && decide (c.toNat ≤ 70) then some (c.toNat - 55)
  else none

/-- Accumulate the value of a digit string. -/
def digitsToNat (base : Nat) (ds : List Char) : Nat :=
  ds.foldl (fun acc c => acc * base + (hexDigitVal c).getD 0) 0

/-- Longest digit run at the front of `s`; `none` when there is no digit
(the `NaN` outcome of `parseInt`). -/
def parseIntCore (base : Nat) (isD : Char → Bool) (s : List Char) (sign : Int) : Option Int :=
  let ds := s.takeWhile isD
  if ds = [] then none else some (sign * Int.ofNat (digitsToNat base ds))

/-- `parseInt` after whitespace/sign stripping: detects a `0x`/`0X` prefix
(hexadecimal, radix unspecified in the source) and otherwise parses decimal. -/
def parseIntBody (s : List Char) (sign : Int) : Option Int :=
  match s with
  | '0' :: x :: t =>
    if x = 'x' || x = 'X' then parseIntCore 16 isHexDigitJS t sign
    else parseIntCore 10 isDigit10 s sign
  | _ => parseIntCore 10 isDigit10 s sign

/-- JavaScript `parseInt(s)` with unspecified radix; `none` models `NaN`. -/
def parseIntJS (s : List Char) : Option Int :=
  match s.dropWhile isJsSpace with
  | '-' :: t => parseIntBody t (-1)
  | '+' :: t => parseIntBody t 1
  | s1 => parseIntBody s1 1

/-- Decimal digits of `n`, most significant first (`fuel`-driven; the top-level
wrapper supplies enough fuel for every input). -/
def digitChar (d : Nat) : Char := Char.ofNat (48 + d % 10)

def natDigitsF : Nat → Nat → List Char → List Char
  | 0, _, acc => acc
  | fuel + 1, n, acc =>
    if n < 10 then digitChar (n % 10) :: acc
    else natDigitsF fuel (n / 10) (digitChar (n % 10) :: acc)

/-- JavaScript `String(n)` for a nonnegative integer. -/
def natToStr (n : Nat) : List Char := natDigitsF (n + 1) n []

/-- JavaScript `String(n)` for an integer-valued number. -/
def intToStr (i : Int) : List Char :=
  match i with
  | Int.ofNat n => natToStr n
  | Int.negSucc m => '-' :: natToStr (m + 1)

/-- One UTF-8 continuation byte written as `%XX`, consumed from the front of
the character list. -/
def contByte : List Char → Option (Nat × List Char)
  | '%' :: h1 :: h2 :: rest =>
    match hexDigitVal h1, hexDigitVal h2 with
    | some a, some b =>
      let v := a * 16 + b
      if decide (128 ≤ v) && decide (v < 192) then some (v - 128, rest) else none
    | _, _ => none
  | _ => none

/-- JavaScript `decodeURIComponent`: percent triplets are decoded as UTF-8
byte sequences; any malformed triplet or invalid/overlong/surrogate sequence
raises `URIError`, modelled as `none`.  Fuel-driven; the wrapper supplies
`length` fuel, which suffices since every step consumes at least one input
character. -/
def decodeURIComponentF : Nat → List Char → Option (List Char)
  | _, [] => some []
  | 0, _ :: _ => none
  | fuel + 1, c :: cs =>
    if c = '%' then
      match cs with
      | h1 :: h2 :: rest =>
        match hexDigitVal h1, hexDigitVal h2 with
        | some a, some b =>
          let b0 := a * 16 + b
          if b0 < 128 then
            (decodeURIComponentF fuel rest).map (fun t => Char.ofNat b0 :: t)
          else if b0 < 194 then none
          else if b0 < 224 then
            match contByte rest with
            | some (x1, r1) =>
              (decodeURIComponentF fuel r1).map
                (fun t => Char.ofNat ((b0 - 192) * 64 + x1) :: t)
            | none => none
          else if b0 < 240 then
            match contByte rest with
            | some (x1, r1) =>
              match contByte r1 with
              | some (x2, r2) =>
                let cp := (b0 - 224) * 4096 + x1 * 64 + x2
                if decide (2048 ≤ cp) && !(decide (55296 ≤ cp) && decide (cp ≤ 57343)) then
                  (decodeURIComponentF fuel r2).map (fun t => Char.ofNat cp :: t)
                else none
              | none => none
            | none => none
          else if b0 < 245 then
            match contByte rest with
            | some (x1, r1) =>
              match contByte r1 with
              | some (x2, r2) =>
                match contByte r2 with
                | some (x3, r3) =>
                  let cp := (b0 - 240) * 262144 + x1 * 4096 + x2 * 64 + x3
                  if decide (65536 ≤ cp) && decide (cp ≤ 1114111) then
                    (decodeURIComponentF fuel r3).map (fun t => Char.ofNat cp :: t)
                  else none
                | none => none
              | none => none
            | none => none
          else none
        | _, _ => none
      | _ => none
    else (decodeURIComponentF fuel cs).map (fun t => c :: t)

/-- JavaScript `decodeURIComponent` (`none` models a thrown `URIError`). -/
def decodeURIComponentL (s : List Char) : Option (List Char) :=
  decodeURIComponentF s.length s

/-- The characters `encodeURIComponent` leaves unescaped: letters, digits and
`- _ . ! ~ * ' ( )`. -/
def isUnreservedURI (c : Char) : Bool :=
  c.isAlpha || c.isDigit || c == '-' || c == '_' || c == '.' || c == '!'
    || c == '~' || c == '*' || c == '\'' || c == '(' || c == ')'

/-- UTF-8 bytes of a code point. -/
def utf8Bytes (n : Nat) : List Nat :=
  if n < 128 then [n]
  else if n < 2048 then [192 + n / 64, 128 + n % 64]
  else if n < 65536 then [224 + n / 4096, 128 + (n / 64) % 64, 128 + n % 64]
  else [240 + n / 262144, 128 + (n / 4096) % 64, 128 + (n / 64) % 64, 128 + n % 64]

/-- Uppercase hexadecimal digit. -/
def hexUpper (d : Nat) : Char :=
  if d < 10 then Char.ofNat (48 + d) else Char.ofNat (55 + d)

/-- A byte written as `%XX` with uppercase hexadecimal. -/
def byteToPct (b : Nat) : List Char := ['%', hexUpper (b / 16), hexUpper (b % 16)]

/-- JavaScript `encodeURIComponent`. -/
def encodeURIComponentL (s : List Char) : List Char :=
  (s.map (fun c =>
    if isUnreservedURI c then [c] else ((utf8Bytes c.toNat).map byteToPct).flatten)).flatten

/-- Parsed components of an image link (`src/types`: `ImageLink`). -/
structure ImageLink where
  path : List Char
  hash : List Char
  params : List (List Char)
  isWikiStyle : Bool
deriving DecidableEq

/-- `parseLinkComponents` (part_006 lines 86-121).  For wiki links
(`linkPath = none`) the interior is split on the first `#` and then on `|`;
for markdown links the URL is percent-decoded (best effort), split on `#`,
and the parameters come from the bracketed description split on `|` with the
first segment discarded. -/
def parseLinkComponents (mainPart : List Char) (linkPath : Option (List Char)) : ImageLink :=
  let raw := linkPath.getD mainPart
  let pathToParse :=
    match linkPath with
    | some _ => (decodeURIComponentL raw).getD raw
    | none => raw
  let ph := splitHash2 pathToParse
  let hash :=
    match ph.2 with
    | some h => if h = [] then [] else '#' :: h
    | none => []
  let splitSrc :=
    match linkPath with
    | some _ => mainPart
    | none => ph.1
  let parts := splitOnSep '|' splitSrc
  { path :=
      match linkPath with
      | some _ => ph.1
      | none => parts.headD []
    hash := hash
    params := parts.tail
    isWikiStyle := linkPath.isNone }

/-- Percent-encode each `/`-delimited segment of a path independently
(part_006 line 152: `link.path.split('/').map(encodeURIComponent).flatten('/')`). -/
def encodeSegments (p : List Char) : List Char :=
  joinSep '/' ((splitOnSep '/' p).map encodeURIComponentL)

/-- `buildLinkPath` (part_006 lines 140-158): path (optionally
segment-encoded) + `|`-joined parameters + hash. -/
def buildLinkPath (link : ImageLink) (encode : Bool) : List Char :=
  let paramsStr :=
    match link.params with
    | [] => []
    | _ :: _ => '|' :: joinSep '|' link.params
  let finalPath := if encode then encodeSegments link.path else link.path
  finalPath ++ paramsStr ++ link.hash

/-- Attempt to match the wiki image regex `(!\[\[)([^\]]+)(\]\])` exactly at
the head of the text, returning the interior and the remaining text. -/
def tryWikiAt (l : List Char) : Option (List Char × List Char) :=
  match l with
  | c1 :: c2 :: c3 :: rest =>
    if c1 = '!' ∧ c2 = '[' ∧ c3 = '[' then
      let inner := rest.takeWhile (· != ']')
      match rest.dropWhile (· != ']') with
      | d1 :: d2 :: rest2 =>
        if d1 = ']' ∧ d2 = ']' ∧ inner ≠ [] then some (inner, rest2) else none
      | _ => none
    else none
  | _ => none

/-- Attempt to match the markdown image regex `!\[([^\]]*)\]\(([^)]+)\)`
exactly at the head of the text, returning description, URL and the rest. -/
def tryMdAt (l : List Char) : Option (List Char × List Char × List Char) :=
  match l with
  | c1 :: c2 :: rest =>
    if c1 = '!' ∧ c2 = '[' then
      let desc := rest.takeWhile (· != ']')
      match rest.dropWhile (· != ']') with
      | d1 :: d2 :: rest2 =>
        if d1 = ']' ∧ d2 = '(' then
          let url := rest2.takeWhile (· != ')')
          match rest2.dropWhile (· != ')') with
          | e1 :: rest3 =>
            if e1 = ')' ∧ url ≠ [] then some (desc, url, rest3) else none
          | _ => none
        else none
      | _ => none
    else none
  | _ => none

/-- JavaScript `text.replace(WIKILINK_IMAGE_REGEX, cb)`: scan left to right,
replacing each non-overlapping match by `f inner` and continuing after it.
Fuel-driven; the wrapper supplies `length` fuel, which suffices since each
step consumes at least one character. -/
def scanWikiF (f : List Char → List Char) : Nat → List Char → List Char
  | _, [] => []
  | 0, l => l
  | fuel + 1, c :: cs =>
    match tryWikiAt (c :: cs) with
    | some (inner, rest) => f inner ++ scanWikiF f fuel rest
    | none => c :: scanWikiF f fuel cs

def scanWiki (f : List Char → List Char) (l : List Char) : List Char :=
  scanWikiF f l.length l

/-- The interiors of the wiki-image matches of a text, in scan order
(JavaScript `matchAll(WIKILINK_IMAGE_REGEX)`). -/
def wikiMatchesF : Nat → List Char → List (List Char)
  | _, [] => []
  | 0, _ => []
  | fuel + 1, c :: cs =>
    match tryWikiAt (c :: cs) with
    | some (inner, rest) => inner :: wikiMatchesF fuel rest
    | none => wikiMatchesF fuel cs

def wikiMatches (l : List Char) : List (List Char) := wikiMatchesF l.length l

/-- JavaScript `text.replace(MARKDOWN_IMAGE_REGEX, cb)`. -/
def scanMdF (f : List Char → List Char → List Char) : Nat → List Char → List Char
  | _, [] => []
  | 0, l => l
  | fuel + 1, c :: cs =>
    match tryMdAt (c :: cs) with
    | some (desc, url, rest) => f desc url ++ scanMdF f fuel rest
    | none => c :: scanMdF f fuel cs

def scanMd (f : List Char → List Char → List Char) (l : List Char) : List Char :=
  scanMdF f l.length l

/-- The (description, URL) pairs of the markdown-image matches of a text, in
scan order. -/
def mdMatchesF : Nat → List Char → List (List Char × List Char)
  | _, [] => []
  | 0, _ => []
  | fuel + 1, c :: cs =>
    match tryMdAt (c :: cs) with
    | some (desc, url, rest) => (desc, url) :: mdMatchesF fuel rest
    | none => mdMatchesF fuel cs

def mdMatches (l : List Char) : List (List Char × List Char) := mdMatchesF l.length l

/-- The original text of one wiki-image match: `tryWikiAt_eq` below shows
every match decomposes the scanned text this way. -/
def wikiOrigText (inner : List Char) : List Char := s2l "![[" ++ inner ++ s2l "]]"

/-- The original text of one markdown-image match. -/
def mdOrigText (desc url : List Char) : List Char :=
  s2l "![" ++ desc ++ s2l "](" ++ url ++ s2l ")"

/-- Prepend a character to the first segment of a gap list. -/
def consHead (c : Char) : List (List Char) → List (List Char)
  | [] => [[c]]
  | g :: gs => (c :: g) :: gs

/-- The non-match gap segments of the wiki-image scan, in scan order: a text
is the interleaving of its gaps and its matches, and a replace pass touches
only the match slots. -/
def wikiGapsF : Nat → List Char → List (List Char)
  | _, [] => [[]]
  | 0, l => [l]
  | fuel + 1, c :: cs =>
    match tryWikiAt (c :: cs) with
    | some (_, rest) => [] :: wikiGapsF fuel rest
    | none => consHead c (wikiGapsF fuel cs)

def wikiGaps (l : List Char) : List (List Char) := wikiGapsF l.length l

/-- The non-match gap segments of the markdown-image scan. -/
def mdGapsF : Nat → List Char → List (List Char)
  | _, [] => [[]]
  | 0, l => [l]
  | fuel + 1, c :: cs =>
    match tryMdAt (c :: cs) with
    | some (_, _, rest) => [] :: mdGapsF fuel rest
    | none => consHead c (mdGapsF fuel cs)

def mdGaps (l : List Char) : List (List Char) := mdGapsF l.length l

/-- Interleave gap segments with replacement segments:
`g0 ++ r0 ++ g1 ++ r1 ++ ... ++ gn` — the shape of a scan's output. -/
def interleaveSegs : List (List Char) → List (List Char) → List Char
  | [], _ => []
  | g :: _, [] => g
  | g :: gs, r :: rs => g ++ r ++ interleaveSegs gs rs

/-- Replacement for one wiki-image match in `updateLinks` (part_006 lines
28-42): if the parsed path resolves to the target, the parameters are
transformed and the link rebuilt; otherwise the original match is returned. -/
def wikiReplace (resolve : List Char → Option (List Char)) (target : List Char)
    (transform : List (List Char) → List (List Char)) (inner : List Char) : List Char :=
  let link := parseLinkComponents inner none
  if resolve link.path = some target then
    s2l "![[" ++ buildLinkPath { link with params := transform link.params } false ++ s2l "]]"
  else s2l "![[" ++ inner ++ s2l "]]"

/-- Replacement for one markdown-image match in `updateLinks` (part_006 lines
45-63): on a resolve hit the description's first pipe segment (trimmed, with
the file base name as fallback) is re-joined with the transformed parameters
and the URL is rebuilt with `encode = true`. -/
def mdReplace (resolve : List Char → Option (List Char)) (target basename : List Char)
    (transform : List (List Char) → List (List Char)) (desc url : List Char) : List Char :=
  let link := parseLinkComponents desc (some url)
  if resolve link.path = some target then
    let desc0 := trimJS ((splitOnSep '|' desc).headD [])
    let descFinal := if desc0 = [] then basename else desc0
    let newParams := transform link.params
    let newDescription :=
      match newParams with
      | [] => descFinal
      | _ :: _ => joinSep '|' (descFinal :: newParams)
    s2l "![" ++ newDescription ++ s2l "](" ++ buildLinkPath { link with params := [] } true ++ s2l ")"
  else s2l "![" ++ desc ++ s2l "](" ++ url ++ s2l ")"

/-- `updateLinks` (part_006 lines 26-64): wiki pass first, then markdown pass
over the result. -/
def updateLinks (resolve : List Char → Option (List Char)) (target basename : List Char)
    (transform : List (List Char) → List (List Char)) (text : List Char) : List Char :=
  scanMd (mdReplace resolve target basename transform)
    (scanWiki (wikiReplace resolve target transform) text)

/-- Result of the document-level rewrite: the new document text and whether a
change was reported. -/
structure RewriteResult where
  text : List Char
  changed : Bool
deriving DecidableEq

def fmOpen : List Char := s2l "---\n"

def fmClose : List Char := s2l "\n---\n"

/-- `updateImageLinks` (part_006 lines 166-215) as a pure function of the
document text: the active-file guard, frontmatter exclusion
(`startsWith('---\n')`, `indexOf('\n---\n', 4)`, `+ 5`), the `updateLinks`
pass over the body, and the final reassembly `substring(0, end) + replaced`. -/
def updateImageLinksModel (resolve : List Char → Option (List Char))
    (activePath imagePath basename : List Char)
    (transform : List (List Char) → List (List Char)) (docText : List Char) : RewriteResult :=
  if activePath = imagePath then ⟨docText, false⟩
  else
    let fmEnd : Option Nat :=
      if startsWithL docText fmOpen then
        match indexOfFrom docText fmClose 4 with
        | some i => some (i + 5)
        | none => none
      else none
    let content :=
      match fmEnd with
      | some e => docText.drop e
      | none => docText
    let replaced := updateLinks resolve imagePath basename transform content
    if replaced = content then ⟨docText, false⟩
    else
      ⟨(match fmEnd with
        | some e => docText.take e
        | none => []) ++ replaced, true⟩

/-- The transform used by `updateImageLinkWidth` (part_000 lines 28-42):
replace the last parameter by `String(newWidth)` when it parses as a number,
otherwise append `String(newWidth)`. -/
def setWidthTransform (newWidth : Int) (params : List (List Char)) : List (List Char) :=
  match params.getLast? with
  | some lastParam =>
    if (parseIntJS lastParam).isSome then params.dropLast ++ [intToStr newWidth]
    else params ++ [intToStr newWidth]
  | none => params ++ [intToStr newWidth]

/-- The transform used by `removeImageWidth` (part_000 lines 48-62): drop the
last parameter when it parses as a number, otherwise leave the list unchanged. -/
def removeWidthTransform (params : List (List Char)) : List (List Char) :=
  match params.getLast? with
  | some lastParam =>
    if (parseIntJS lastParam).isSome then params.dropLast else params
  | none => params

/-- The `lastParamIsNumber` test shared by both transforms. -/
def widthTailIsNumber (params : List (List Char)) : Bool :=
  match params.getLast? with
  | some lastParam => (parseIntJS lastParam).isSome
  | none => false

/-- `parseWidth` helper of `getCurrentImageWidth` (part_000 lines 123-130). -/
def parseWidth (pipeParams : List (List Char)) : Option Int :=
  match pipeParams.getLast? with
  | none => none
  | some lastParam => parseIntJS lastParam

/-- Width candidate extracted from one wiki match in `getCurrentImageWidth`
(part_000 lines 133-150): strip the `#` subpath, split on `|`, resolve the
path, and parse the trailing parameter. -/
def wikiWidthCand (resolve : List Char → Option (List Char)) (target : List Char)
    (inner : List Char) : Option Int :=
  let linkWithoutHash := inner.takeWhile (· != '#')
  let parts := splitOnSep '|' linkWithoutHash
  if resolve (parts.headD []) = some target then parseWidth parts.tail else none

/-- Width candidate extracted from one markdown match in
`getCurrentImageWidth` (part_000 lines 154-176): parameters from the
description, URL percent-decoded (best effort) before resolution. -/
def mdWidthCand (resolve : List Char → Option (List Char)) (target : List Char)
    (du : List Char × List Char) : Option Int :=
  let pipeParams := (splitOnSep '|' du.1).tail
  let decodedPath := (decodeURIComponentL du.2).getD du.2
  if resolve decodedPath = some target then parseWidth pipeParams else none

/-- `getCurrentImageWidth` (part_000 lines 115-180) as a function of the
document text: scan all wiki matches first (breaking at the first resolved
link with a numeric trailing parameter), then all markdown matches. -/
def getCurrentImageWidth (resolve : List Char → Option (List Char))
    (target docText : List Char) : Option Int :=
  match (wikiMatches docText).findSome? (wikiWidthCand resolve target) with
  | some w => some w
  | none => (mdMatches docText).findSome? (mdWidthCand resolve target)

/-- The frontmatter exclusion of the rewriter (part_006 lines 184-193), as a
function returning the scanned body. -/
def stripFrontmatter (docText : List Char) : List Char :=
  if startsWithL docText fmOpen then
    match indexOfFrom docText fmClose 4 with
    | some i => docText.drop (i + 5)
    | none => docText
  else docText

/-- Width query as the specification describes it (its section 4.5): "the
same two-pass scan" as the rewriter, which excludes a leading frontmatter
block from scanning, read-only. -/
def currentWidthSpec (resolve : List Char → Option (List Char))
    (target docText : List Char) : Option Int :=
  let body := stripFrontmatter docText
  match (wikiMatches body).findSome? (wikiWidthCand resolve target) with
  | some w => some w
  | none => (mdMatches body).findSome? (mdWidthCand resolve target)

example : parseIntJS (s2l "100px") = some 100 := by decide
example : parseIntJS (s2l "align-left") = none := by decide
example : parseIntJS (s2l " -42x") = some (-42) := by decide
example : parseIntJS (s2l "0x10") = some 16 := by decide
example : decodeURIComponentL (s2l "My%20Photo.png") = some (s2l "My Photo.png") := by decide
example : decodeURIComponentL (s2l "a%2") = none := by decide
example : encodeURIComponentL (s2l "my image (1).png") = s2l "my%20image%20(1).png" := by decide
example : intToStr 120 = s2l "120" := by decide
example : intToStr (-7) = s2l "-7" := by decide
example :
    buildLinkPath (parseLinkComponents (s2l "img.png|align-left|200#sec") none) false
      = s2l "img.png|align-left|200#sec" := by decide
example : wikiMatches (s2l "x ![[a.png|50]] y ![[b.png]]") = [s2l "a.png|50", s2l "b.png"] := by
  decide
example : mdMatches (s2l "![[w.png]] ![alt|50](b.png)") = [(s2l "alt|50", s2l "b.png")] := by
  decide
example :
    updateLinks (fun p => some p) (s2l "a.png") (s2l "a") (setWidthTransform 120)
      (s2l "![[a.png|50]] and ![alt|50](a.png)")
      = s2l "![[a.png|120]] and ![alt|120](a.png)" := by decide

/-! ## Toolbox lemmas -/

theorem takeWhile_all {p : Char → Bool} :
    ∀ l : List Char, (∀ c ∈ l, p c = true) → l.takeWhile p = l := by
  intro l h
  induction l with
  | nil => rfl
  | cons c rest ih =>
    have hc : p c = true := h c (List.mem_cons_self c rest)
    have ih' := ih fun x hx => h x (List.mem_cons_of_mem c hx)
    simp [List.takeWhile_cons, hc, ih']

theorem dropWhile_all {p : Char → Bool} :
    ∀ l : List Char, (∀ c ∈ l, p c = true) → l.dropWhile p = [] := by
  intro l h
  induction l with
  | nil => rfl
  | cons c rest ih =>
    have hc : p c = true := h c (List.mem_cons_self c rest)
    have ih' := ih fun x hx => h x (List.mem_cons_of_mem c hx)
    simp [List.dropWhile_cons, hc, ih']

theorem dropWhile_none {p : Char → Bool} :
    ∀ l : List Char, (∀ c ∈ l, p c = false) → l.dropWhile p = l := by
  intro l h
  induction l with
  | nil => rfl
  | cons c rest _ =>
    have hc : p c = false := h c (List.mem_cons_self c rest)
    simp [List.dropWhile_cons, hc]

theorem takeWhile_app {p : Char → Bool} :
    ∀ (a : List Char) (x : Char) (b : List Char), (∀ c ∈ a, p c = true) → p x = false →
      (a ++ x :: b).takeWhile p = a := by
  intro a x b ha hx
  induction a with
  | nil => simp [List.takeWhile_cons, hx]
  | cons c rest ih =>
    have hc : p c = true := ha c (List.mem_cons_self c rest)
    simp [List.takeWhile_cons, hc]
    exact ih fun y hy => ha y (List.mem_cons_of_mem c hy)

theorem dropWhile_app {p : Char → Bool} :
    ∀ (a : List Char) (x : Char) (b : List Char), (∀ c ∈ a, p c = true) → p x = false →
      (a ++ x :: b).dropWhile p = x :: b := by
  intro a x b ha hx
  induction a with
  | nil => simp [List.dropWhile_cons, hx]
  | cons c rest ih =>
    have hc : p c = true := ha c (List.mem_cons_self c rest)
    simp [List.dropWhile_cons, hc]
    exact ih fun y hy => ha y (List.mem_cons_of_mem c hy)

theorem splitOnSep_ne_nil (sep : Char) : ∀ l : List Char, splitOnSep sep l ≠ [] := by
  intro l
  cases l with
  | nil => simp [splitOnSep]
  | cons c rest =>
    simp only [splitOnSep]
    cases splitOnSep sep rest with
    | nil => simp
    | cons h t =>
      by_cases hc : c = sep <;> simp [hc]

theorem splitOnSep_exists (sep : Char) (l : List Char) :
    ∃ h t, splitOnSep sep l = h :: t := by
  have := splitOnSep_ne_nil sep l
  exact List.exists_cons_of_ne_nil this

theorem joinSep_splitOnSep (sep : Char) : ∀ l : List Char, joinSep sep (splitOnSep sep l) = l := by
  intro l
  induction l with
  | nil => rfl
  | cons c rest ih =>
    obtain ⟨h, t, heq⟩ := splitOnSep_exists sep rest
    rw [heq] at ih
    by_cases hc : c = sep
    · simp only [splitOnSep, heq, if_pos hc]
      subst hc
      simpa [joinSep] using ih
    · simp only [splitOnSep, heq, if_neg hc]
      cases t with
      | nil => simpa [joinSep] using ih
      | cons t0 t1 =>
        simp only [joinSep] at ih ⊢
        rw [List.cons_append, ih]

theorem splitOnSep_no_sep (sep : Char) :
    ∀ l : List Char, (∀ c ∈ l, c ≠ sep) → splitOnSep sep l = [l] := by
  intro l h
  induction l with
  | nil => rfl
  | cons c rest ih =>
    have hrest := ih fun x hx => h x (List.mem_cons_of_mem c hx)
    have hc : c ≠ sep := h c (List.mem_cons_self c rest)
    simp [splitOnSep, hrest, hc]

theorem splitOnSep_app (sep : Char) :
    ∀ (a r : List Char), (∀ c ∈ a, c ≠ sep) →
      splitOnSep sep (a ++ sep :: r) = a :: splitOnSep sep r := by
  intro a r ha
  induction a with
  | nil =>
    obtain ⟨h, t, heq⟩ := splitOnSep_exists sep r
    simp [splitOnSep, heq]
  | cons c rest ih =>
    have hrest := ih fun x hx => ha x (List.mem_cons_of_mem c hx)
    have hc : c ≠ sep := ha c (List.mem_cons_self c rest)
    simp [splitOnSep, hrest, hc]

theorem splitOnSep_joinSep (sep : Char) :
    ∀ segs : List (List Char), segs ≠ [] → (∀ s ∈ segs, ∀ c ∈ s, c ≠ sep) →
      splitOnSep sep (joinSep sep segs) = segs := by
  intro segs hne hsep
  induction segs with
  | nil => exact absurd rfl hne
  | cons x rest ih =>
    cases rest with
    | nil =>
      simp only [joinSep]
      exact splitOnSep_no_sep sep x (hsep x (List.mem_cons_self x []))
    | cons y t =>
      simp only [joinSep]
      rw [splitOnSep_app sep x (joinSep sep (y :: t))
        (hsep x (List.mem_cons_self x (y :: t)))]
      rw [ih (by simp) fun s hs c hc => hsep s (List.mem_cons_of_mem x hs) c hc]

theorem startsWithL_length :
    ∀ (needle l : List Char), startsWithL l needle = true → needle.length ≤ l.length := by
  intro needle
  induction needle with
  | nil => simp
  | cons b bs ih =>
    intro l h
    cases l with
    | nil => simp [startsWithL] at h
    | cons a as =>
      simp only [startsWithL, Bool.and_eq_true] at h
      have := ih as h.2
      simp only [List.length_cons]
      omega

theorem startsWithL_iff :
    ∀ (needle l : List Char), startsWithL l needle = true ↔ ∃ r, l = needle ++ r := by
  intro needle
  induction needle with
  | nil => intro l; simp [startsWithL]
  | cons b bs ih =>
    intro l
    cases l with
    | nil =>
      simp only [startsWithL]
      constructor
      · intro h; exact absurd h (by simp)
      · rintro ⟨r, hr⟩; simp at hr
    | cons a as =>
      simp only [startsWithL, Bool.and_eq_true, beq_iff_eq, ih as]
      constructor
      · rintro ⟨hab, r, hr⟩; exact ⟨r, by simp [hab, hr]⟩
      · rintro ⟨r, hr⟩
        simp only [List.cons_append, List.cons.injEq] at hr
        exact ⟨hr.1, r, hr.2⟩

theorem findSub_startsWith :
    ∀ (hay needle : List Char) (j : Nat), findSub hay needle = some j →
      startsWithL (hay.drop j) needle = true := by
  intro hay
  induction hay with
  | nil =>
    intro needle j h
    simp only [findSub] at h
    by_cases hs : startsWithL [] needle
    · rw [if_pos hs] at h
      cases h
      simpa using hs
    · simp [if_neg hs] at h
  | cons a as ih =>
    intro needle j h
    simp only [findSub] at h
    by_cases hs : startsWithL (a :: as) needle
    · rw [if_pos hs] at h
      cases h
      simpa using hs
    · rw [if_neg hs] at h
      simp only [Option.map_eq_some'] at h
      obtain ⟨j', hj', rfl⟩ := h
      simpa using ih needle j' hj'

theorem indexOfFrom_bound (hay needle : List Char) (start i : Nat)
    (hne : needle ≠ []) (h : indexOfFrom hay needle start = some i) :
    i + needle.length ≤ hay.length ∧ start ≤ i := by
  simp only [indexOfFrom, Option.map_eq_some'] at h
  obtain ⟨j, hj, rfl⟩ := h
  have h1 := findSub_startsWith _ _ _ hj
  have h2 := startsWithL_length _ _ h1
  rw [List.drop_drop] at h2
  rw [List.length_drop] at h2
  have h3 : 0 < needle.length := List.length_pos.mpr hne
  constructor
  · omega
  · omega

theorem indexOfFrom_startsWith (hay needle : List Char) (start i : Nat)
    (h : indexOfFrom hay needle start = some i) :
    startsWithL (hay.drop i) needle = true := by
  simp only [indexOfFrom, Option.map_eq_some'] at h
  obtain ⟨j, hj, rfl⟩ := h
  have h1 := findSub_startsWith _ _ _ hj
  rwa [List.drop_drop, Nat.add_comm] at h1

theorem take_app_left {α : Type} :
    ∀ (l1 l2 : List α) (n : Nat), n ≤ l1.length → (l1 ++ l2).take n = l1.take n := by
  intro l1
  induction l1 with
  | nil =>
    intro l2 n h
    simp at h
    simp [h]
  | cons a as ih =>
    intro l2 n h
    cases n with
    | zero => simp
    | succ m =>
      simp only [List.cons_append, List.take_succ_cons]
      rw [ih l2 m (by simpa using h)]

theorem dropLast_eq_take' : ∀ l : List (List Char), l.dropLast = l.take (l.length - 1) := by
  intro l
  induction l with
  | nil => rfl
  | cons a as ih =>
    cases as with
    | nil => rfl
    | cons b bs =>
      simp only [List.dropLast_cons₂, List.length_cons, List.take_succ_cons,
        Nat.add_sub_cancel]
      rw [ih]
      simp

theorem findSome?_eq_none_iff {α β : Type} (f : α → Option β) :
    ∀ l : List α, l.findSome? f = none ↔ ∀ a ∈ l, f a = none := by
  intro l
  induction l with
  | nil => simp [List.findSome?]
  | cons a as ih =>
    simp only [List.findSome?]
    cases hfa : f a with
    | some b => simp [hfa]
    | none => simp [hfa, ih]

theorem findSome?_append {α β : Type} (f : α → Option β) :
    ∀ l1 l2 : List α, (l1 ++ l2).findSome? f =
      match l1.findSome? f with
      | some b => some b
      | none => l2.findSome? f := by
  intro l1 l2
  induction l1 with
  | nil => simp [List.findSome?]
  | cons a as ih =>
    simp only [List.cons_append, List.findSome?]
    cases hfa : f a with
    | some b => simp
    | none => simpa using ih

theorem findSome?_map {α β γ : Type} (g : α → β) (f : β → Option γ) :
    ∀ l : List α, (l.map g).findSome? f = l.findSome? (fun a => f (g a)) := by
  intro l
  induction l with
  | nil => simp [List.findSome?]
  | cons a as ih =>
    simp only [List.map_cons, List.findSome?]
    cases hfa : f (g a) with
    | some b => simp
    | none => simpa using ih

/-! ## Scanner structure lemmas -/

theorem tryWikiAt_eq (l inner rest : List Char) (h : tryWikiAt l = some (inner, rest)) :
    l = '!' :: '[' :: '[' :: (inner ++ ']' :: ']' :: rest) := by
  simp only [tryWikiAt] at h
  split at h
  · rename_i c1 c2 c3 r
    split at h
    · rename_i hif
      obtain ⟨rfl, rfl, rfl⟩ := hif
      split at h
      · rename_i d1 d2 rest2 hdw
        split at h
        · rename_i hif2
          obtain ⟨rfl, rfl, hne⟩ := hif2
          rw [Option.some.injEq, Prod.mk.injEq] at h
          obtain ⟨rfl, rfl⟩ := h
          have hr := List.takeWhile_append_dropWhile (p := (· != ']')) (l := r)
          rw [hdw] at hr
          conv_lhs => rw [← hr]
        · exact Option.noConfusion h
      · exact Option.noConfusion h
    · exact Option.noConfusion h
  · exact Option.noConfusion h

theorem tryMdAt_eq (l desc url rest : List Char) (h : tryMdAt l = some (desc, url, rest)) :
    l = '!' :: '[' :: (desc ++ ']' :: '(' :: (url ++ ')' :: rest)) := by
  simp only [tryMdAt] at h
  split at h
  · rename_i c1 c2 r
    split at h
    · rename_i hif
      obtain ⟨rfl, rfl⟩ := hif
      split at h
      · rename_i d1 d2 rest2 hdw
        split at h
        · rename_i hif2
          obtain ⟨rfl, rfl⟩ := hif2
          split at h
          · rename_i e1 rest3 hdw2
            split at h
            · rename_i hif3
              obtain ⟨rfl, hne⟩ := hif3
              rw [Option.some.injEq, Prod.mk.injEq] at h
              obtain ⟨rfl, h2⟩ := h
              rw [Prod.mk.injEq] at h2
              obtain ⟨rfl, rfl⟩ := h2
              have hr := List.takeWhile_append_dropWhile (p := (· != ']')) (l := r)
              rw [hdw] at hr
              have hr2 := List.takeWhile_append_dropWhile (p := (· != ')')) (l := rest2)
              rw [hdw2] at hr2
              conv_lhs => rw [← hr, ← hr2]
            · exact Option.noConfusion h
          · exact Option.noConfusion h
        · exact Option.noConfusion h
      · exact Option.noConfusion h
    · exact Option.noConfusion h
  · exact Option.noConfusion h

theorem scanWikiF_id (f : List Char → List Char) :
    ∀ (fuel : Nat) (l : List Char),
      (∀ inner ∈ wikiMatchesF fuel l, f inner = s2l "![[" ++ inner ++ s2l "]]") →
      scanWikiF f fuel l = l := by
  intro fuel
  induction fuel with
  | zero => intro l _h; cases l <;> rfl
  | succ n ih =>
    intro l h
    cases l with
    | nil => rfl
    | cons c cs =>
      cases htw : tryWikiAt (c :: cs) with
      | none =>
        simp only [scanWikiF, htw]
        have hm : wikiMatchesF (n + 1) (c :: cs) = wikiMatchesF n cs := by
          simp [wikiMatchesF, htw]
        rw [hm] at h
        rw [ih cs h]
      | some p =>
        obtain ⟨inner, rest⟩ := p
        simp only [scanWikiF, htw]
        have hm : wikiMatchesF (n + 1) (c :: cs) = inner :: wikiMatchesF n rest := by
          simp [wikiMatchesF, htw]
        rw [hm] at h
        have hf := h inner (List.mem_cons_self _ _)
        rw [hf, ih rest fun x hx => h x (List.mem_cons_of_mem _ hx)]
        rw [tryWikiAt_eq (c :: cs) inner rest htw]
        have e1 : s2l "![[" = ['!', '[', '['] := rfl
        have e2 : s2l "]]" = [']', ']'] := rfl
        simp [e1, e2]

theorem scanMdF_id (f : List Char → List Char → List Char) :
    ∀ (fuel : Nat) (l : List Char),
      (∀ du ∈ mdMatchesF fuel l, f du.1 du.2 = s2l "![" ++ du.1 ++ s2l "](" ++ du.2 ++ s2l ")") →
      scanMdF f fuel l = l := by
  intro fuel
  induction fuel with
  | zero => intro l _h; cases l <;> rfl
  | succ n ih =>
    intro l h
    cases l with
    | nil => rfl
    | cons c cs =>
      cases htw : tryMdAt (c :: cs) with
      | none =>
        simp only [scanMdF, htw]
        have hm : mdMatchesF (n + 1) (c :: cs) = mdMatchesF n cs := by
          simp [mdMatchesF, htw]
        rw [hm] at h
        rw [ih cs h]
      | some p =>
        obtain ⟨desc, url, rest⟩ := p
        simp only [scanMdF, htw]
        have hm : mdMatchesF (n + 1) (c :: cs) = (desc, url) :: mdMatchesF n rest := by
          simp [mdMatchesF, htw]
        rw [hm] at h
        have hf := h (desc, url) (List.mem_cons_self _ _)
        simp only at hf
        rw [hf, ih rest fun x hx => h x (List.mem_cons_of_mem _ hx)]
        rw [tryMdAt_eq (c :: cs) desc url rest htw]
        have e1 : s2l "![" = ['!', '['] := rfl
        have e2 : s2l "](" = [']', '('] := rfl
        have e3 : s2l ")" = [')'] := rfl
        simp [e1, e2, e3]

theorem consHead_ne_nil (c : Char) (l : List (List Char)) : consHead c l ≠ [] := by
  cases l <;> simp [consHead]

theorem wikiGapsF_ne_nil : ∀ (fuel : Nat) (l : List Char), wikiGapsF fuel l ≠ [] := by
  intro fuel
  induction fuel with
  | zero => intro l; cases l <;> simp [wikiGapsF]
  | succ n ih =>
    intro l
    cases l with
    | nil => simp [wikiGapsF]
    | cons c cs =>
      cases htw : tryWikiAt (c :: cs) with
      | some p =>
        obtain ⟨inner, rest⟩ := p
        simp [wikiGapsF, htw]
      | none =>
        simp only [wikiGapsF, htw]
        exact consHead_ne_nil c _

theorem mdGapsF_ne_nil : ∀ (fuel : Nat) (l : List Char), mdGapsF fuel l ≠ [] := by
  intro fuel
  induction fuel with
  | zero => intro l; cases l <;> simp [mdGapsF]
  | succ n ih =>
    intro l
    cases l with
    | nil => simp [mdGapsF]
    | cons c cs =>
      cases htw : tryMdAt (c :: cs) with
      | some p =>
        obtain ⟨desc, url, rest⟩ := p
        simp [mdGapsF, htw]
      | none =>
        simp only [mdGapsF, htw]
        exact consHead_ne_nil c _

theorem scanWikiF_segs (f : List Char → List Char) :
    ∀ (fuel : Nat) (l : List Char),
      scanWikiF f fuel l
        = interleaveSegs (wikiGapsF fuel l) ((wikiMatchesF fuel l).map f) := by
  intro fuel
  induction fuel with
  | zero =>
    intro l
    cases l with
    | nil => rfl
    | cons c cs => rfl
  | succ n ih =>
    intro l
    cases l with
    | nil => rfl
    | cons c cs =>
      cases htw : tryWikiAt (c :: cs) with
      | some p =>
        obtain ⟨inner, rest⟩ := p
        simp only [scanWikiF, wikiGapsF, wikiMatchesF, htw, List.map_cons]
        rw [ih rest]
        simp [interleaveSegs]
      | none =>
        obtain ⟨g, gs, hg⟩ := List.exists_cons_of_ne_nil (wikiGapsF_ne_nil n cs)
        simp only [scanWikiF, wikiGapsF, wikiMatchesF, htw]
        rw [ih cs, hg]
        simp only [consHead]
        cases wikiMatchesF n cs with
        | nil => simp [interleaveSegs]
        | cons m ms => simp [interleaveSegs]

theorem scanMdF_segs (f : List Char → List Char → List Char) :
    ∀ (fuel : Nat) (l : List Char),
      scanMdF f fuel l
        = interleaveSegs (mdGapsF fuel l)
            ((mdMatchesF fuel l).map fun du => f du.1 du.2) := by
  intro fuel
  induction fuel with
  | zero =>
    intro l
    cases l with
    | nil => rfl
    | cons c cs => rfl
  | succ n ih =>
    intro l
    cases l with
    | nil => rfl
    | cons c cs =>
      cases htw : tryMdAt (c :: cs) with
      | some p =>
        obtain ⟨desc, url, rest⟩ := p
        simp only [scanMdF, mdGapsF, mdMatchesF, htw, List.map_cons]
        rw [ih rest]
        simp [interleaveSegs]
      | none =>
        obtain ⟨g, gs, hg⟩ := List.exists_cons_of_ne_nil (mdGapsF_ne_nil n cs)
        simp only [scanMdF, mdGapsF, mdMatchesF, htw]
        rw [ih cs, hg]
        simp only [consHead]
        cases mdMatchesF n cs with
        | nil => simp [interleaveSegs]
        | cons m ms => simp [interleaveSegs]

/-! ## Hash-split and split/join round-trip lemmas -/

theorem bne_all_of_not_mem (x : Char) (l : List Char) (h : x ∉ l) :
    ∀ c ∈ l, (c != x) = true := by
  intro c hc
  simp only [bne_iff_ne, ne_eq]
  rintro rfl
  exact h hc

theorem splitHash2_no_hash (l : List Char) (h : '#' ∉ l) : splitHash2 l = (l, none) := by
  have h1 := takeWhile_all (p := (· != '#')) l (bne_all_of_not_mem '#' l h)
  have h2 := dropWhile_all (p := (· != '#')) l (bne_all_of_not_mem '#' l h)
  simp [splitHash2, h1, h2]

theorem splitHash2_one_hash (a b : List Char) (ha : '#' ∉ a) (hb : '#' ∉ b) :
    splitHash2 (a ++ '#' :: b) = (a, some b) := by
  have h1 := takeWhile_app (p := (· != '#')) a '#' b (bne_all_of_not_mem '#' a ha) (by simp)
  have h2 := dropWhile_app (p := (· != '#')) a '#' b (bne_all_of_not_mem '#' a ha) (by simp)
  have h3 := takeWhile_all (p := (· != '#')) b (bne_all_of_not_mem '#' b hb)
  simp [splitHash2, h1, h2, h3]

theorem params_join (path0 : List Char) (params : List (List Char)) :
    (path0 ++ match params with
              | [] => ([] : List Char)
              | _ :: _ => '|' :: joinSep '|' params) = joinSep '|' (path0 :: params) := by
  cases params with
  | nil => simp [joinSep]
  | cons p t => simp [joinSep]

/-- A link interior is hash-safe when it contains no `#`, or exactly one `#`
followed by a nonempty fragment.  This is the region where the limit-2
`split("#")` of the parser loses no text. -/
def hashSafe (l : List Char) : Prop :=
  '#' ∉ l ∨ ∃ a b, l = a ++ '#' :: b ∧ '#' ∉ a ∧ '#' ∉ b ∧ b ≠ []

theorem buildParse_wiki (inner : List Char) (h : hashSafe inner) :
    buildLinkPath (parseLinkComponents inner none) false = inner := by
  cases h with
  | inl hno =>
    obtain ⟨h0, t0, hp⟩ := splitOnSep_exists '|' inner
    have hsh := splitHash2_no_hash inner hno
    simp only [parseLinkComponents, buildLinkPath, Option.getD_none, hsh]
    rw [hp]
    simp only [List.headD_cons, List.tail_cons, List.append_nil, Bool.false_eq_true, if_false]
    rw [params_join h0 t0, ← hp, joinSep_splitOnSep]
  | inr hr =>
    obtain ⟨a, b, rfl, ha, hb, hbne⟩ := hr
    have hsh := splitHash2_one_hash a b ha hb
    obtain ⟨h0, t0, hp⟩ := splitOnSep_exists '|' a
    simp only [parseLinkComponents, buildLinkPath, Option.getD_none, hsh]
    rw [hp]
    simp only [List.headD_cons, List.tail_cons, Bool.false_eq_true, if_false, if_neg hbne]
    rw [params_join h0 t0, ← hp, joinSep_splitOnSep]

theorem decode_no_pct :
    ∀ (fuel : Nat) (l : List Char), l.length ≤ fuel → '%' ∉ l →
      decodeURIComponentF fuel l = some l := by
  intro fuel
  induction fuel with
  | zero =>
    intro l h _hp
    cases l with
    | nil => rfl
    | cons c cs => simp at h
  | succ n ih =>
    intro l h hp
    cases l with
    | nil => rfl
    | cons c cs =>
      have hc : ¬ c = '%' := fun e => hp (e ▸ List.mem_cons_self c cs)
      simp only [decodeURIComponentF, if_neg hc]
      rw [ih cs (by simpa using h) fun hm => hp (List.mem_cons_of_mem c hm)]
      rfl

theorem decodeURIComponentL_no_pct (l : List Char) (h : '%' ∉ l) :
    decodeURIComponentL l = some l :=
  decode_no_pct l.length l le_rfl h

theorem buildParse_md (desc url : List Char) (hp : '%' ∉ url) (h : hashSafe url) :
    buildLinkPath { parseLinkComponents desc (some url) with params := [] } false = url := by
  have hd := decodeURIComponentL_no_pct url hp
  cases h with
  | inl hno =>
    have hsh := splitHash2_no_hash url hno
    simp only [parseLinkComponents, buildLinkPath, hd, Option.getD_some, hsh]
    simp
  | inr hr =>
    obtain ⟨a, b, rfl, ha, hb, hbne⟩ := hr
    have hsh := splitHash2_one_hash a b ha hb
    simp only [parseLinkComponents, buildLinkPath, hd, Option.getD_some, hsh]
    simp [if_neg hbne]

/-! ## Digit-string lemmas for `parseIntJS` and `intToStr` -/

theorem digit_not_space (c : Char) (h : isDigit10 c = true) : isJsSpace c = false := by
  rw [Bool.eq_false_iff]
  intro htrue
  have hm : c ∈ jsSpaceChars := of_decide_eq_true htrue
  fin_cases hm <;> exact absurd h (by decide)

theorem digitChar_digit (d : Nat) : isDigit10 (digitChar d) = true := by
  have h : d % 10 < 10 := Nat.mod_lt _ (by omega)
  unfold digitChar
  generalize d % 10 = k at h ⊢
  interval_cases k <;> decide

theorem natDigitsF_digits :
    ∀ (fuel n : Nat) (acc : List Char), (∀ c ∈ acc, isDigit10 c = true) →
      ∀ c ∈ natDigitsF fuel n acc, isDigit10 c = true := by
  intro fuel
  induction fuel with
  | zero =>
    intro n acc hacc
    simpa [natDigitsF] using hacc
  | succ m ih =>
    intro n acc hacc c hc
    have hstep : ∀ x ∈ digitChar (n % 10) :: acc, isDigit10 x = true := by
      intro x hx
      rcases List.mem_cons.mp hx with rfl | hxm
      · exact digitChar_digit _
      · exact hacc x hxm
    simp only [natDigitsF] at hc
    by_cases h10 : n < 10
    · rw [if_pos h10] at hc
      exact hstep c hc
    · rw [if_neg h10] at hc
      exact ih (n / 10) (digitChar (n % 10) :: acc) hstep c hc

theorem natDigitsF_ne_nil :
    ∀ (fuel n : Nat) (acc : List Char), acc ≠ [] → natDigitsF fuel n acc ≠ [] := by
  intro fuel
  induction fuel with
  | zero =>
    intro n acc hacc
    simpa [natDigitsF] using hacc
  | succ m ih =>
    intro n acc hacc
    simp only [natDigitsF]
    by_cases h10 : n < 10
    · simp [if_pos h10]
    · rw [if_neg h10]
      exact ih (n / 10) (digitChar (n % 10) :: acc) (by simp)

theorem natToStr_spec (n : Nat) :
    natToStr n ≠ [] ∧ ∀ c ∈ natToStr n, isDigit10 c = true := by
  constructor
  · unfold natToStr
    simp only [natDigitsF]
    by_cases h10 : n < 10
    · simp [if_pos h10]
    · rw [if_neg h10]
      exact natDigitsF_ne_nil n (n / 10) _ (by simp)
  · exact natDigitsF_digits (n + 1) n [] (by simp)

theorem parseIntCore10_digits (s : List Char) (sign : Int) (hne : s ≠ [])
    (hd : ∀ c ∈ s, isDigit10 c = true) : (parseIntCore 10 isDigit10 s sign).isSome = true := by
  simp only [parseIntCore]
  rw [takeWhile_all s hd]
  simp [hne]

theorem parseIntBody_digits (s : List Char) (sign : Int) (hne : s ≠ [])
    (hd : ∀ c ∈ s, isDigit10 c = true) : (parseIntBody s sign).isSome = true := by
  rw [parseIntBody.eq_def]
  split
  · rename_i x t
    have hx := hd x (by simp)
    have h1 : ¬ x = 'x' := by rintro rfl; exact absurd hx (by decide)
    have h2 : ¬ x = 'X' := by rintro rfl; exact absurd hx (by decide)
    rw [if_neg (by simp [h1, h2])]
    exact parseIntCore10_digits _ _ (by simp) hd
  · exact parseIntCore10_digits _ _ hne hd

theorem parseIntJS_digits (s : List Char) (hne : s ≠ [])
    (hd : ∀ c ∈ s, isDigit10 c = true) : (parseIntJS s).isSome = true := by
  have hdw : s.dropWhile isJsSpace = s :=
    dropWhile_none s fun c hc => digit_not_space c (hd c hc)
  rw [parseIntJS.eq_def, hdw]
  split
  · exact absurd (hd '-' (by simp)) (by decide)
  · exact absurd (hd '+' (by simp)) (by decide)
  · exact parseIntBody_digits s 1 hne hd

theorem parseIntJS_intToStr (n : Int) : (parseIntJS (intToStr n)).isSome = true := by
  cases n with
  | ofNat m =>
    obtain ⟨hne, hd⟩ := natToStr_spec m
    exact parseIntJS_digits _ hne hd
  | negSucc m =>
    obtain ⟨hne, hd⟩ := natToStr_spec (m + 1)
    simp only [intToStr]
    have hsp : ('-' :: natToStr (m + 1)).dropWhile isJsSpace = '-' :: natToStr (m + 1) := by
      have hminus : isJsSpace '-' = false := by decide
      simp [List.dropWhile_cons, hminus]
    rw [parseIntJS.eq_def, hsp]
    show (parseIntBody (natToStr (m + 1)) (-1)).isSome = true
    exact parseIntBody_digits _ _ hne hd

theorem setWidth_concat (n : Int) (X : List (List Char)) :
    setWidthTransform n (X ++ [intToStr n]) = X ++ [intToStr n] := by
  simp [setWidthTransform, List.getLast?_concat, parseIntJS_intToStr n, List.dropLast_concat]

/-! ## Claim theorems -/

/-- Claim C4: for every parameter list and integer `n`, the SetWidth
transform replaces the last element with `String(n)` exactly when the last
element parses as an integer (in the `parseInt` sense used by the code), and
appends `String(n)` otherwise; all elements before the last are unchanged in
both cases. -/
theorem claim_C4 (params : List (List Char)) (n : Int) :
    (widthTailIsNumber params = true →
      setWidthTransform n params = params.dropLast ++ [intToStr n])
    ∧ (widthTailIsNumber params = false →
      setWidthTransform n params = params ++ [intToStr n])
    ∧ (setWidthTransform n params).take (params.length - 1)
        = params.take (params.length - 1) := by
  have hsome : widthTailIsNumber params = true →
      setWidthTransform n params = params.dropLast ++ [intToStr n] := by
    intro h
    unfold widthTailIsNumber at h
    unfold setWidthTransform
    split at h
    · simp [h]
    · simp at h
  have hnone : widthTailIsNumber params = false →
      setWidthTransform n params = params ++ [intToStr n] := by
    intro h
    unfold widthTailIsNumber at h
    unfold setWidthTransform
    split at h
    · simp [h]
    · rfl
  refine ⟨hsome, hnone, ?_⟩
  cases hB : widthTailIsNumber params with
  | true =>
    rw [hsome hB]
    rw [take_app_left params.dropLast [intToStr n] (params.length - 1)
      (by rw [List.length_dropLast])]
    rw [dropLast_eq_take', List.take_take]
    simp
  | false =>
    rw [hnone hB]
    rw [take_app_left params [intToStr n] (params.length - 1) (Nat.sub_le _ _)]

/-- Claim C4 witness: the spec's own examples, `align-left|200` resized to
300 (replace) and `align-left` resized to 300 (append). -/
theorem claim_C4_witness :
    setWidthTransform 300 [s2l "align-left", s2l "200"] = [s2l "align-left", s2l "300"]
    ∧ setWidthTransform 300 [s2l "align-left"] = [s2l "align-left", s2l "300"] := by
  constructor
  · exact ((claim_C4 [s2l "align-left", s2l "200"] 300).1 (by decide)).trans (by decide)
  · exact ((claim_C4 [s2l "align-left"] 300).2.1 (by decide)).trans (by decide)

/-- Claim C5: the RemoveWidth transform drops exactly the last element when
it parses as an integer and returns the list unchanged otherwise; elements
before the last are never modified. -/
theorem claim_C5 (params : List (List Char)) :
    (widthTailIsNumber params = true → removeWidthTransform params = params.dropLast)
    ∧ (widthTailIsNumber params = false → removeWidthTransform params = params)
    ∧ (removeWidthTransform params).take (params.length - 1)
        = params.take (params.length - 1) := by
  have hsome : widthTailIsNumber params = true →
      removeWidthTransform params = params.dropLast := by
    intro h
    unfold widthTailIsNumber at h
    unfold removeWidthTransform
    split at h
    · simp [h]
    · simp at h
  have hnone : widthTailIsNumber params = false →
      removeWidthTransform params = params := by
    intro h
    unfold widthTailIsNumber at h
    unfold removeWidthTransform
    split at h
    · simp [h]
    · rfl
  refine ⟨hsome, hnone, ?_⟩
  cases hB : widthTailIsNumber params with
  | true =>
    rw [hsome hB]
    rw [dropLast_eq_take', List.take_take]
    simp
  | false => rw [hnone hB]

/-- Claim C5 witness: the spec's own examples, `align-left|300` (drop the
width) and `align-left` (unchanged). -/
theorem claim_C5_witness :
    removeWidthTransform [s2l "align-left", s2l "300"] = [s2l "align-left"]
    ∧ removeWidthTransform [s2l "align-left"] = [s2l "align-left"] := by
  constructor
  · exact ((claim_C5 [s2l "align-left", s2l "300"]).1 (by decide)).trans (by decide)
  · exact (claim_C5 [s2l "align-left"]).2.1 (by decide)

/-- Claim C9: applying the SetWidth transform twice yields the same
parameter list as applying it once. -/
theorem claim_C9 (params : List (List Char)) (n : Int) :
    setWidthTransform n (setWidthTransform n params) = setWidthTransform n params := by
  have key : ∃ X, setWidthTransform n params = X ++ [intToStr n] := by
    simp only [setWidthTransform]
    cases params.getLast? with
    | none => exact ⟨params, rfl⟩
    | some lastParam =>
      by_cases hp : (parseIntJS lastParam).isSome = true
      · exact ⟨params.dropLast, by simp [hp]⟩
      · rw [Bool.not_eq_true] at hp
        exact ⟨params, by simp [hp]⟩
  obtain ⟨X, hX⟩ := key
  rw [hX, setWidth_concat]

/-- Claim C10: when the active file is the image file itself, the
document-level update reports no change and leaves the text untouched. -/
theorem claim_C10 (resolve : List Char → Option (List Char))
    (activePath imagePath basename : List Char)
    (transform : List (List Char) → List (List Char)) (docText : List Char)
    (h : activePath = imagePath) :
    updateImageLinksModel resolve activePath imagePath basename transform docText
      = ⟨docText, false⟩ := by
  simp [updateImageLinksModel, h]

/-- Claim C10 witness: a document full of links to the image is reported
unchanged when the image file itself is the active file. -/
theorem claim_C10_witness :
    updateImageLinksModel (fun _ => none) (s2l "img.png") (s2l "img.png") (s2l "img")
      removeWidthTransform (s2l "![[img.png|100]]") = ⟨s2l "![[img.png|100]]", false⟩ :=
  claim_C10 _ _ _ _ _ _ rfl

/-- Claim C8: in a markdown-style parse the URL is percent-decoded before
the fragment/path split with a local fallback to the raw text on decode
failure, and the parameters are the description split on `|` minus its first
segment.  `a%2G` is a concrete decode failure (bad hex digit). -/
theorem claim_C8 (desc url : List Char) :
    (parseLinkComponents desc (some url)).params = (splitOnSep '|' desc).tail
    ∧ (parseLinkComponents desc (some url)).path
        = (splitHash2 ((decodeURIComponentL url).getD url)).1
    ∧ decodeURIComponentL (s2l "a%2G") = none
    ∧ (parseLinkComponents (s2l "alt|200") (some (s2l "a%2G"))).path = s2l "a%2G"
    ∧ (parseLinkComponents (s2l "alt|200") (some (s2l "a%2G"))).params = [s2l "200"] := by
  exact ⟨rfl, rfl, by decide, by decide, by decide⟩

/-- Claim C2: when a document starts with a frontmatter open line and has a
closing delimiter at offset 4 or later, the rewrite keeps everything up to
and including the close byte-identical and applies the link pass only to the
remainder; when no close exists, the whole document is scanned. -/
theorem claim_C2 (resolve : List Char → Option (List Char))
    (activePath imagePath basename : List Char)
    (transform : List (List Char) → List (List Char)) (docText : List Char) (i : Nat) :
    (startsWithL docText fmOpen = true → indexOfFrom docText fmClose 4 = some i →
      (updateImageLinksModel resolve activePath imagePath basename transform
          docText).text.take (i + 5) = docText.take (i + 5)
      ∧ (activePath ≠ imagePath →
          (updateImageLinksModel resolve activePath imagePath basename transform
              docText).text
            = docText.take (i + 5)
              ++ updateLinks resolve imagePath basename transform (docText.drop (i + 5))))
    ∧ (startsWithL docText fmOpen = true → indexOfFrom docText fmClose 4 = none →
        activePath ≠ imagePath →
        (updateImageLinksModel resolve activePath imagePath basename transform
            docText).text
          = updateLinks resolve imagePath basename transform docText) := by
  constructor
  · intro hsw hio
    have hlen : i + 5 ≤ docText.length := by
      have hb := indexOfFrom_bound docText fmClose 4 i (by decide) hio
      have h5 : fmClose.length = 5 := rfl
      omega
    by_cases hap : activePath = imagePath
    · constructor
      · simp [updateImageLinksModel, hap]
      · intro hne; exact absurd hap hne
    · have hmain : (updateImageLinksModel resolve activePath imagePath basename transform
          docText).text
          = docText.take (i + 5)
            ++ updateLinks resolve imagePath basename transform (docText.drop (i + 5)) := by
        simp only [updateImageLinksModel, if_neg hap, hsw, hio, if_true]
        by_cases hrep : updateLinks resolve imagePath basename transform
            (docText.drop (i + 5)) = docText.drop (i + 5)
        · rw [if_pos hrep]
          rw [hrep]
          exact (List.take_append_drop _ _).symm
        · rw [if_neg hrep]
      refine ⟨?_, fun _ => hmain⟩
      rw [hmain]
      rw [take_app_left (docText.take (i + 5)) _ (i + 5)
        (by rw [List.length_take]; omega)]
      rw [List.take_take]
      simp
  · intro hsw hio hne
    simp only [updateImageLinksModel, if_neg hne, hsw, hio, if_true]
    by_cases hrep : updateLinks resolve imagePath basename transform docText = docText
    · rw [if_pos hrep, hrep]
    · rw [if_neg hrep]
      simp

/-- Claim C2 witness: the spec's frontmatter-immunity example, with the
closing delimiter ending at offset 19. -/
theorem claim_C2_witness :
    (updateImageLinksModel (fun p => some p) (s2l "note.md") (s2l "img.png") (s2l "img")
        (setWidthTransform 100) (s2l "---\nwidth: 300\n---\n![[img.png]]")).text
      = (s2l "---\nwidth: 300\n---\n![[img.png]]").take 19
        ++ updateLinks (fun p => some p) (s2l "img.png") (s2l "img") (setWidthTransform 100)
            ((s2l "---\nwidth: 300\n---\n![[img.png]]").drop 19) :=
  ((claim_C2 _ _ _ _ _ _ 14).1 (by decide) (by decide)).2 (by decide)

/-- Claim C3: per-match frame property of the rewriter, for every document.
The wiki pass output is the interleaving of the document's untouched gap
segments with the per-match replacement values, the document itself is the
same interleaving with the original match texts, and the replacement value
is byte-identical to the original match exactly when the parsed path does
not resolve to the target (including when `resolve` returns `null`); a
resolve hit substitutes the rebuilt link with the transform applied to its
parameters.  The markdown pass satisfies the same characterization over the
wiki pass's output, which is what the code scans in its second pass.  In
the concrete two-target document only target A's link is rewritten. -/
theorem claim_C3 (resolve : List Char → Option (List Char)) (target basename : List Char)
    (transform : List (List Char) → List (List Char)) (text : List Char) :
    (updateLinks resolve target basename transform text
        = scanMd (mdReplace resolve target basename transform)
            (scanWiki (wikiReplace resolve target transform) text))
    ∧ (scanWiki (wikiReplace resolve target transform) text
        = interleaveSegs (wikiGaps text)
            ((wikiMatches text).map (wikiReplace resolve target transform)))
    ∧ (text = interleaveSegs (wikiGaps text) ((wikiMatches text).map wikiOrigText))
    ∧ (∀ inner : List Char, resolve (parseLinkComponents inner none).path ≠ some target →
        wikiReplace resolve target transform inner = wikiOrigText inner)
    ∧ (∀ inner : List Char, resolve (parseLinkComponents inner none).path = some target →
        wikiReplace resolve target transform inner
          = s2l "![[" ++ buildLinkPath
              { parseLinkComponents inner none with
                  params := transform (parseLinkComponents inner none).params } false
            ++ s2l "]]")
    ∧ (∀ t1 : List Char,
        scanMd (mdReplace resolve target basename transform) t1
          = interleaveSegs (mdGaps t1)
              ((mdMatches t1).map fun du =>
                mdReplace resolve target basename transform du.1 du.2))
    ∧ (∀ t1 : List Char,
        t1 = interleaveSegs (mdGaps t1) ((mdMatches t1).map fun du => mdOrigText du.1 du.2))
    ∧ (∀ desc url : List Char,
        resolve (parseLinkComponents desc (some url)).path ≠ some target →
        mdReplace resolve target basename transform desc url = mdOrigText desc url)
    ∧ updateLinks (fun p => some p) (s2l "a.png") (s2l "a") (setWidthTransform 120)
        (s2l "![[a.png|50]] ![alt|50](b.png)")
        = s2l "![[a.png|120]] ![alt|50](b.png)" := by
  refine ⟨rfl, ?_, ?_, ?_, ?_, ?_, ?_, ?_, by decide⟩
  · exact scanWikiF_segs _ text.length text
  · exact ((scanWikiF_id wikiOrigText text.length text fun _ _ => rfl).symm).trans
      (scanWikiF_segs wikiOrigText text.length text)
  · intro inner h
    simp only [wikiReplace, wikiOrigText]
    rw [if_neg h]
  · intro inner h
    simp only [wikiReplace]
    rw [if_pos h]
  · intro t1
    exact scanMdF_segs _ t1.length t1
  · intro t1
    exact ((scanMdF_id (fun d u => mdOrigText d u) t1.length t1 fun _ _ => rfl).symm).trans
      (scanMdF_segs (fun d u => mdOrigText d u) t1.length t1)
  · intro desc url h
    simp only [mdReplace, mdOrigText]
    rw [if_neg h]

/-- Claim C3 witness: the non-target preservation conjuncts applied at
concrete matches — a wiki match under a resolver that finds nothing, and a
markdown match resolving to a different file than the target. -/
theorem claim_C3_witness :
    wikiReplace (fun _ => (none : Option (List Char))) (s2l "a.png") (setWidthTransform 120)
        (s2l "b.png|50") = wikiOrigText (s2l "b.png|50")
    ∧ mdReplace (fun p => some p) (s2l "a.png") (s2l "a") (setWidthTransform 120)
        (s2l "alt|50") (s2l "b.png") = mdOrigText (s2l "alt|50") (s2l "b.png") :=
  ⟨(claim_C3 (fun _ => (none : Option (List Char))) (s2l "a.png") (s2l "a")
      (setWidthTransform 120) []).2.2.2.1 (s2l "b.png|50") (by decide),
   (claim_C3 (fun p => some p) (s2l "a.png") (s2l "a")
      (setWidthTransform 120) []).2.2.2.2.2.2.2.1 (s2l "alt|50") (s2l "b.png") (by decide)⟩

/-- Claim C1 counterexample: `![[a#]]` matches the wiki grammar, but its
interior `a#` rebuilds to `a` — the trailing `#` with empty fragment is
dropped by the limit-2 hash split, so `build(parse(s)) = s` fails. -/
theorem claim_C1_counterexample :
    wikiMatches (s2l "![[a#]]") = [s2l "a#"]
    ∧ buildLinkPath (parseLinkComponents (s2l "a#") none) false = s2l "a"
    ∧ buildLinkPath (parseLinkComponents (s2l "a#") none) false ≠ s2l "a#" := by
  exact ⟨by decide, by decide, by decide⟩

/-- Claim C1 (amended): the round trip `build(parse(s)) = s` holds for every
wiki interior containing either no `#` or exactly one `#` followed by a
nonempty fragment (pipes and empty parameter tokens included), and for the
URL side of every markdown link whose URL is percent-free and hash-safe,
built with `encodePath = false`. -/
theorem claim_C1_amended :
    (∀ inner : List Char, hashSafe inner →
      buildLinkPath (parseLinkComponents inner none) false = inner)
    ∧ ∀ desc url : List Char, '%' ∉ url → hashSafe url →
      buildLinkPath { parseLinkComponents desc (some url) with params := [] } false = url :=
  ⟨buildParse_wiki, buildParse_md⟩

/-- Claim C1 witness: the round trip at a wiki interior with an empty
parameter token and a fragment, and at a percent-free markdown URL. -/
theorem claim_C1_witness :
    buildLinkPath (parseLinkComponents (s2l "img.png||200#sec") none) false
        = s2l "img.png||200#sec"
    ∧ buildLinkPath
        { parseLinkComponents (s2l "alt") (some (s2l "pics/my photo.png")) with params := [] }
        false = s2l "pics/my photo.png" := by
  constructor
  · exact claim_C1_amended.1 _
      (Or.inr ⟨s2l "img.png||200", s2l "sec", by decide, by decide, by decide, by decide⟩)
  · exact claim_C1_amended.2 _ _ (by decide) (Or.inl (by decide))

/-- Claim C7 counterexample: `encodeURIComponent` leaves parentheses (and
the rest of its unreserved set) unescaped, so building
`my photo (1).png` with `encodePath = true` yields `my%20photo%20(1).png`,
not the fully-escaped `my%20photo%20%281%29.png` the claim asserts. -/
theorem claim_C7_counterexample :
    buildLinkPath
        { path := s2l "my photo (1).png", hash := [], params := [], isWikiStyle := false }
        true = s2l "my%20photo%20(1).png"
    ∧ buildLinkPath
        { path := s2l "my photo (1).png", hash := [], params := [], isWikiStyle := false }
        true ≠ s2l "my%20photo%20%281%29.png" := by
  exact ⟨by decide, by decide⟩

/-- Claim C7 (amended): `encodePath = true` percent-encodes each
`/`-delimited segment independently, preserving `/` separators; spaces and
characters outside `encodeURIComponent`'s unreserved set are escaped while
unreserved characters (including parentheses) are kept; the
`My%20Photo.png` round trip holds. -/
theorem claim_C7_amended :
    (∀ segs : List (List Char), segs ≠ [] → (∀ s ∈ segs, '/' ∉ s) →
      encodeSegments (joinSep '/' segs) = joinSep '/' (segs.map encodeURIComponentL))
    ∧ (∀ c : Char, isUnreservedURI c = true → encodeURIComponentL [c] = [c])
    ∧ encodeURIComponentL [' '] = s2l "%20"
    ∧ encodeURIComponentL ['('] = s2l "("
    ∧ encodeURIComponentL ['&'] = s2l "%26"
    ∧ (parseLinkComponents (s2l "alt") (some (s2l "My%20Photo.png"))).path = s2l "My Photo.png"
    ∧ buildLinkPath
        { parseLinkComponents (s2l "alt") (some (s2l "My%20Photo.png")) with params := [] }
        true = s2l "My%20Photo.png" := by
  refine ⟨?_, ?_, by decide, by decide, by decide, by decide, by decide⟩
  · intro segs hne hsep
    simp only [encodeSegments]
    rw [splitOnSep_joinSep '/' segs hne fun s hs c hc e => hsep s hs (e ▸ hc)]
  · intro c hc
    simp [encodeURIComponentL, hc]

/-- Claim C7 witness: segment-wise encoding at a two-segment path, and an
unreserved character kept verbatim. -/
theorem claim_C7_witness :
    encodeSegments (joinSep '/' [s2l "a b", s2l "c d.png"])
        = joinSep '/' ([s2l "a b", s2l "c d.png"].map encodeURIComponentL)
    ∧ encodeURIComponentL ['z'] = ['z'] :=
  ⟨claim_C7_amended.1 _ (by decide) (by decide), claim_C7_amended.2.1 'z' (by decide)⟩

/-- Claim C6 counterexample: the width query does not exclude the
frontmatter block the way the rewriter does — on a document whose
frontmatter contains a matching 300-wide link and whose body carries width
100, the code answers 300 while the spec's "same two-pass scan as the
rewriter" answers 100. -/
theorem claim_C6_counterexample :
    getCurrentImageWidth (fun p => some p) (s2l "a.png")
        (s2l "---\n![[a.png|300]]\n---\n![[a.png|100]]") = some 300
    ∧ currentWidthSpec (fun p => some p) (s2l "a.png")
        (s2l "---\n![[a.png|300]]\n---\n![[a.png|100]]") = some 100
    ∧ getCurrentImageWidth (fun p => some p) (s2l "a.png")
        (s2l "---\n![[a.png|300]]\n---\n![[a.png|100]]")
      ≠ currentWidthSpec (fun p => some p) (s2l "a.png")
        (s2l "---\n![[a.png|300]]\n---\n![[a.png|100]]") := by
  exact ⟨by decide, by decide, by decide⟩

/-- Claim C6 (amended): the width query is a read-only two-pass scan over
the whole document text (frontmatter not excluded): it returns the first
candidate width over all wiki matches followed by all markdown matches —
the wiki pass short-circuits the markdown pass — and `null` exactly when no
link resolving to the target carries a numeric trailing parameter. -/
theorem claim_C6_amended (resolve : List Char → Option (List Char)) (target doc : List Char) :
    getCurrentImageWidth resolve target doc
      = ((wikiMatches doc).map (wikiWidthCand resolve target)
          ++ (mdMatches doc).map (mdWidthCand resolve target)).findSome? (fun x => x)
    ∧ (getCurrentImageWidth resolve target doc = none ↔
        (∀ inner ∈ wikiMatches doc, wikiWidthCand resolve target inner = none)
        ∧ ∀ du ∈ mdMatches doc, mdWidthCand resolve target du = none) := by
  constructor
  · simp only [getCurrentImageWidth]
    rw [findSome?_append, findSome?_map, findSome?_map]
    have e1 : List.findSome? (fun a => wikiWidthCand resolve target a) (wikiMatches doc)
        = List.findSome? (wikiWidthCand resolve target) (wikiMatches doc) := rfl
    have e2 : List.findSome? (fun a => mdWidthCand resolve target a) (mdMatches doc)
        = List.findSome? (mdWidthCand resolve target) (mdMatches doc) := rfl
    rw [e1, e2]
    cases List.findSome? (wikiWidthCand resolve target) (wikiMatches doc) <;> rfl
  · simp only [getCurrentImageWidth]
    cases hw : (wikiMatches doc).findSome? (wikiWidthCand resolve target) with
    | some w =>
      constructor
      · intro habs; exact absurd habs (by simp)
      · rintro ⟨hall, _⟩
        rw [(findSome?_eq_none_iff _ _).mpr hall] at hw
        exact Option.noConfusion hw
    | none =>
      rw [findSome?_eq_none_iff]
      constructor
      · intro h; exact ⟨(findSome?_eq_none_iff _ _).mp hw, h⟩
      · rintro ⟨_, h2⟩; exact h2
